/-
Verification of the lidR tree-segmentation shape tracker (src/TreeSegment.cpp).

The C++ class `TreeSegment` is shallowly embedded as a Lean `structure TreeSegment.State`
together with one Lean function per member function.  C++ `double` arithmetic is modelled
by exact real arithmetic (`ℝ`); `std::sqrt`, `std::log` and `PI` become `Real.sqrt`,
`Real.log` and `Real.pi`.

Library calls are modelled by their contracts:
  * `boost::geometry` polygons are represented by their vertex lists.  `covered_by` on a
    (convex) polygon is membership in the convex hull of the vertex set, and
    `boost::geometry::convex_hull` returns a ring spanning the convex hull of its input
    vertices.  Since dropping interior vertices does not change the spanned region, and
    every use of a ring in the claims under verification depends only on the region it
    spans (membership tests and the area), the output ring is modelled as the input
    vertex list itself; the region of a ring `l` is `convexHull ℝ {p | p ∈ l}`.
  * `boost::geometry::area` of a hull ring is the area of the spanned region, modelled
    as the Lebesgue volume of the convex hull of the vertices.
  * `std::sort` is modelled by insertion sort (`List.insertionSort`), one valid
    implementation of a comparison sort.
-/
import Mathlib

noncomputable section

namespace TreeSegment

/-- A 2D point, modelling `boost::geometry` `point_t` values `(x, y)`. -/
abbrev Point2 := ℝ × ℝ

/-- Modelled from the spec: `PointXYZ` is declared in `Point.h`/`TreeSegment.h`, which are
not among the sources.  Per the spec's data model it is a 3D coordinate `(x, y, z)` plus an
externally assigned integer identifier mapping the point back to its source record.  The
identifier is used in the source only as a vector index (`idResult[points[i].id]`), so it
is modelled as a natural number. -/
structure PointXYZ where
  x : ℝ
  y : ℝ
  z : ℝ
  id : ℕ
deriving DecidableEq

instance : Inhabited PointXYZ := ⟨⟨0, 0, 0, 0⟩⟩

/-- Modelled from the spec: `euclidianDistance2D_inZ` is declared in a header that is not
among the sources.  The spec describes every tracker distance as the planar (x, y)
Euclidean distance, elevation ignored. -/
def euclidianDistance2D_inZ (a b : PointXYZ) : ℝ :=
  Real.sqrt ((a.x - b.x) ^ 2 + (a.y - b.y) ^ 2)

/-- Modelled from the spec: the comparator `ZSortPointBis` (declared in a missing header)
orders points by descending elevation; the spec says elevation-extremum refresh "sorts the
full point list by descending z and takes the first element". -/
def ZSortPointBis (a b : PointXYZ) : Prop := b.z ≤ a.z

instance : DecidableRel ZSortPointBis := fun a b => Real.decidableLE b.z a.z

instance : IsTotal PointXYZ ZSortPointBis := ⟨fun a b => le_total b.z a.z⟩

instance : IsTrans PointXYZ ZSortPointBis :=
  ⟨fun _ _ _ hab hbc => le_trans hbc hab⟩

/-- Source `std::sort(points.begin(), points.end(), ZSortPointBis<PointXYZ>())`: the point list
sorted by descending elevation. -/
def zsortDesc (l : List PointXYZ) : List PointXYZ := l.insertionSort ZSortPointBis

/-- The 2D projection of a 3D point, `point_t p(pt.x, pt.y)` in the source. -/
def proj2 (q : PointXYZ) : Point2 := (q.x, q.y)

/-- The vertex set of a ring (the set of points appearing in the vertex list). -/
def ringSet (l : List Point2) : Set Point2 := {p | p ∈ l}

/-- Modelled from the boost.geometry contract: `covered_by(p, poly)` holds iff `p` lies
inside or on the boundary of the polygon.  For the convex rings maintained by the tracker
this region is the convex hull of the ring's vertices (for the degenerate one- and
two-vertex rings arising before three points exist, boost's behaviour on such invalid
polygons is taken as the same mathematical reading: the hull of the vertices, i.e. a
point or a segment). -/
def coveredBy (p : Point2) (ring : List Point2) : Prop :=
  p ∈ convexHull ℝ (ringSet ring)

/-- Modelled from the boost.geometry contract: `boost::geometry::convex_hull` outputs a
ring spanning the convex hull of the input vertices.  Rings are identified up to the
region they span (see the file header), and pruning interior vertices does not change
that region, so the output ring is modelled as the input vertex list itself. -/
def bConvexHull (ring : List Point2) : List Point2 := ring

/-- Modelled from the boost.geometry contract: `boost::geometry::area` of a convex ring
is the area of the region it spans, i.e. the planar Lebesgue measure of the convex hull
of its vertices. -/
def polyArea (ring : List Point2) : ℝ :=
  (MeasureTheory.volume (convexHull ℝ (ringSet ring))).toReal

/-- The state of one `TreeSegment` object: every data member of the C++ class.
`nbPoints` is a C++ `int` that only ever counts points, modelled as `ℕ`. -/
structure State where
  nbPoints : ℕ
  points : List PointXYZ
  hull : List Point2
  pointsCH : List Point2
  area : ℝ
  diff_area : ℝ
  dist : ℝ
  apex : Point2
  Zmax : PointXYZ
  scoreS : ℝ
  scoreO : ℝ
  scoreC : ℝ
  scoreR : ℝ
  scoreGlobal : ℝ

/-- Source `TreeSegment::TreeSegment()`: the default constructor zeroes the scalar members;
`points`, `convex_hull` and `pointsCH` are default-constructed empty.  `apex` and `Zmax`
are default-constructed (indeterminate in C++); they are modelled as the origin point,
which no claim observes on an empty tracker. -/
def mkEmpty : State :=
  { nbPoints := 0, points := [], hull := [], pointsCH := [],
    area := 0, diff_area := 0, dist := 0, apex := (0, 0), Zmax := default,
    scoreS := 0, scoreO := 0, scoreC := 0, scoreR := 0, scoreGlobal := 0 }

/-- Source `TreeSegment::TreeSegment(PointXYZ &pt)`: seeds the tracker with one point, sets
`apex` to its 2D projection, appends `apex` to the (empty) hull ring and caches the
point as `Zmax`. -/
def mkSeed (pt : PointXYZ) : State :=
  { nbPoints := 1, points := [pt], hull := [proj2 pt], pointsCH := [],
    area := 0, diff_area := 0, dist := 0, apex := proj2 pt, Zmax := pt,
    scoreS := 0, scoreO := 0, scoreC := 0, scoreR := 0, scoreGlobal := 0 }

/-- Source `TreeSegment::calculateArea`: returns immediately when `nbPoints <= 2`; otherwise
saves the old area, reads the area of the current hull, stores the absolute difference
in `diff_area`, refreshes `pointsCH` from the hull ring and resets `dist` to 0. -/
def calculateArea (s : State) : State :=
  if s.nbPoints ≤ 2 then s
  else
    { s with diff_area := |polyArea s.hull - s.area|,
             area := polyArea s.hull,
             pointsCH := s.hull,
             dist := 0 }

open Classical in
/-- Source `TreeSegment::addPoint`: increments `nbPoints`, appends `pt` to `points`; if the 2D
projection of `pt` is already covered by the hull it returns, otherwise it replaces the
hull by the convex hull of the old ring with the projection appended and recomputes the
derived descriptors via `calculateArea`. -/
def addPoint (s : State) (pt : PointXYZ) : State :=
  let s1 := { s with nbPoints := s.nbPoints + 1, points := s.points ++ [pt] }
  if coveredBy (proj2 pt) s.hull then s1
  else calculateArea { s1 with hull := bConvexHull (s.hull ++ [proj2 pt]) }

open Classical in
/-- Source `TreeSegment::testArea`: read-only probe; 0 if the point is covered, otherwise the
absolute area change a provisional insertion would cause. -/
def testArea (s : State) (pt : PointXYZ) : ℝ :=
  if coveredBy (proj2 pt) s.hull then 0
  else |polyArea (bConvexHull (s.hull ++ [proj2 pt])) - s.area|

/-- The selection loop of `TreeSegment::testDist`: walks the point list keeping the point
with the smallest planar distance to `pt` seen so far; the update fires only on a strict
decrease (`valRef > val`), so the first minimiser is kept.  The source keeps the index
`keep` and reads `points[keep]` afterwards; the kept point itself is carried instead. -/
def tdLoop (pt : PointXYZ) : List PointXYZ → ℝ → PointXYZ → PointXYZ
  | [], _, kp => kp
  | q :: t, valRef, kp =>
    if euclidianDistance2D_inZ pt q < valRef then
      tdLoop pt t (euclidianDistance2D_inZ pt q) q
    else
      tdLoop pt t valRef kp

/-- Source `TreeSegment::testDist`: with a single point, the planar distance from `points[0]`
to `pt`; otherwise the planar distance from `pt` to the member found by the selection
loop (initialised with `points[0]`, scanning all of `points`). -/
def testDist (s : State) (pt : PointXYZ) : ℝ :=
  if s.nbPoints = 1 then
    Real.sqrt (((s.points.headD default).x - pt.x) ^ 2 + ((s.points.headD default).y - pt.y) ^ 2)
  else
    let kp := tdLoop pt s.points (euclidianDistance2D_inZ pt (s.points.headD default))
      (s.points.headD default)
    Real.sqrt ((kp.x - pt.x) ^ 2 + (kp.y - pt.y) ^ 2)

/-- Source `TreeSegment::updateArea` (used only by tree merging): for three or more points,
recomputes the hull ring and area from all points and resets `dist`; for exactly two
points, computes `dist` as the planar distance between them.  It does not write the
`convex_hull` member. -/
def updateArea (s : State) : State :=
  if 3 ≤ s.nbPoints then
    { s with area := polyArea (bConvexHull (s.points.map proj2)),
             pointsCH := bConvexHull (s.points.map proj2),
             dist := 0 }
  else if s.nbPoints = 2 then
    { s with dist := Real.sqrt (((s.points.getD 0 default).x - (s.points.getD 1 default).x) ^ 2 +
                     ((s.points.getD 0 default).y - (s.points.getD 1 default).y) ^ 2) }
  else s

/-- Source `TreeSegment::findZMax`: returns the cached `Zmax.z` (no recomputation). -/
def findZMax (s : State) : ℝ := s.Zmax.z

/-- Source `TreeSegment::getZMax()` (no-argument overload): sorts `points` in place by
descending elevation and stores `points[0]` in `Zmax`.  The source indexes `points[0]`;
on an empty list (unreachable under the source's guards) the cached value is kept. -/
def getZMaxState (s : State) : State :=
  { s with points := zsortDesc s.points,
           Zmax := (zsortDesc s.points).headD s.Zmax }

/-- The inner loop of `TreeSegment::editIdResult`: for each of the first `nbPoints`
tracker points, writes `index` into the point's slot of `idResult` when that slot
still holds 0. -/
def editIdLoop (index : ℤ) : List PointXYZ → List ℤ → List ℤ
  | [], idResult => idResult
  | p :: t, idResult =>
    editIdLoop index t (if idResult.getD p.id 0 = 0 then idResult.set p.id index else idResult)

/-- Source `TreeSegment::editIdResult`: runs the slot-writing loop over `points[0..nbPoints)` and
increments `index` exactly once afterwards.  The updated vector and counter are returned
(the C++ function mutates them through references). -/
def editIdResult (s : State) (idResult : List ℤ) (index : ℤ) : List ℤ × ℤ :=
  (editIdLoop index (s.points.take s.nbPoints) idResult, index + 1)

/-- The divisor selected by the density computation of `TreeSegment::getSize`:
`area` when it is nonzero, otherwise `dist` (the source's `if (area != 0) D = nbPoints /
area; else D = nbPoints / dist;`, with the selected divisor named). -/
def sizeDivisor (s : State) : ℝ :=
  if s.area ≠ 0 then s.area else s.dist

/-- Source `TreeSegment::getSize`: `H` is `findZMax()` (the cached elevation maximum),
`D = nbPoints / (area or dist)`, `threshold = k * D * log H`; `scoreS` is 1 when
`nbPoints > threshold` and `nbPoints / threshold` otherwise. -/
def getSize (k : ℤ) (s : State) : State :=
  let H := findZMax s
  let D := (s.nbPoints : ℝ) / sizeDivisor s
  let threshold := (k : ℝ) * D * Real.log H
  if (s.nbPoints : ℝ) > threshold then { s with scoreS := 1 }
  else { s with scoreS := (s.nbPoints : ℝ) / threshold }

/-- Source `TreeSegment::getOrientation`: zeroes `scoreO`; under the guard
`area != 0 && points.size() > 2 && pointsCH.size() > 2` it refreshes `Zmax` (sorting
`points`), computes the planar centroid `G` of the first `nbPoints` points, the planar
distance from `M` to `G` and the mean planar distance from `M` to the hull-ring
vertices, and scores `1 - 2 * (distMG / distGCH)` when `distMG ≤ distGCH / 2`. -/
def getOrientation (s : State) : State :=
  let s0 := { s with scoreO := 0 }
  if s.area ≠ 0 ∧ 2 < s.points.length ∧ 2 < s.pointsCH.length then
    let s1 := getZMaxState s0
    let M := s1.Zmax
    let ps := s1.points.take s.nbPoints
    let G : PointXYZ := { M with x := (ps.map PointXYZ.x).sum / (s.nbPoints : ℝ),
                                 y := (ps.map PointXYZ.y).sum / (s.nbPoints : ℝ) }
    let distMG := euclidianDistance2D_inZ M G
    let distGCH := (s.pointsCH.map fun v => euclidianDistance2D_inZ M ⟨v.1, v.2, 0, 0⟩).sum /
      (s.pointsCH.length : ℝ)
    if distMG ≤ distGCH / 2 then { s1 with scoreO := 1 - 2 * (distMG / distGCH) }
    else s1
  else s0

/-- The point with maximum elevation, as `getZMax()` computes it: the head of the point
list sorted by descending elevation. -/
def highestOf (s : State) : PointXYZ := (zsortDesc s.points).headD s.Zmax

/-- The planar distances from the refreshed highest point to the hull-ring vertices, as
built by the loop of `TreeSegment::getRegularity` (the source wraps each ring vertex in
a `PointXYZ` and applies `euclidianDistance2D_inZ`). -/
def regDists (s : State) : List ℝ :=
  s.pointsCH.map fun v => euclidianDistance2D_inZ (highestOf s) ⟨v.1, v.2, 0, 0⟩

/-- Source `TreeSegment::getRegularity`: zeroes `scoreR`; under the guard
`area != 0 && nbPoints > 2 && pointsCH.size() > 2` it refreshes `Zmax` (sorting
`points`), sorts the planar distances from `Zmax` to the hull-ring vertices ascending,
picks the entry at (1-indexed) position `round(size * 0.95)` as the radius, and sets
`scoreR = area / (PI * radius * radius)`. -/
def getRegularity (s : State) : State :=
  let s0 := { s with scoreR := 0 }
  if s.area ≠ 0 ∧ 2 < s.nbPoints ∧ 2 < s.pointsCH.length then
    let s1 := getZMaxState s0
    let sorted := (regDists s).insertionSort (· ≤ ·)
    let idx : ℤ := round ((sorted.length : ℝ) * 0.95)
    let radius := sorted.getD (idx - 1).toNat 0
    { s1 with scoreR := s.area / (Real.pi * radius * radius) }
  else s0

/-- A 2x2 real matrix `[[a, b], [c, d]]`, standing in for the 2x2 armadillo matrices of
`findEllipseParameters`. -/
structure Mat2 where
  a : ℝ
  b : ℝ
  c : ℝ
  d : ℝ

/-- Maximum of a list of reals (armadillo `max` of a nonempty column). -/
def lmax : List ℝ → ℝ
  | [] => 0
  | h :: t => t.foldl max h

/-- Minimum of a list of reals (armadillo `min` of a nonempty column). -/
def lmin : List ℝ → ℝ
  | [] => 0
  | h :: t => t.foldl min h

/-- Modelled from the armadillo contract: `princomp` returns the principal-component
coefficient matrix of its argument viewed as an observation matrix (here two
observations in the plane): orthonormal eigenvectors of the sample covariance, leading
component first.  For two observations the leading direction is the normalised row
difference and the second its perpendicular; for coincident rows the coefficients are
the identity.  Armadillo's sign convention is unspecified; one concrete choice is made
(no claim under verification depends on the resulting values). -/
def princomp2 (m : Mat2) : Mat2 :=
  let dx := (m.a - m.c) / 2
  let dy := (m.b - m.d) / 2
  let n := Real.sqrt (dx ^ 2 + dy ^ 2)
  if n = 0 then ⟨1, 0, 0, 1⟩ else ⟨dx / n, -dy / n, dy / n, dx / n⟩

/-- Source `findEllipseParameters`: loads the ring vertices into a 2-by-n matrix (the result of
`unique(data)` is discarded in the source, so no deduplication takes place), forms the
"centre" by looping over the two matrix *rows* (so it averages the first two vertices,
not all of them), forms `C = data * dataᵀ - centerᵀ * center`, projects the vertices on
the principal components of `C`, and returns the two absolute ranges of the
projections. -/
def findEllipseParameters (pts : List Point2) : ℝ × ℝ :=
  let p0 := pts.getD 0 (0, 0)
  let p1 := pts.getD 1 (0, 0)
  let cx := (p0.1 + p1.1) / 2
  let cy := (p0.2 + p1.2) / 2
  let C : Mat2 := ⟨(pts.map fun q => q.1 * q.1).sum - cx * cx,
                   (pts.map fun q => q.1 * q.2).sum - cx * cy,
                   (pts.map fun q => q.2 * q.1).sum - cy * cx,
                   (pts.map fun q => q.2 * q.2).sum - cy * cy⟩
  let PC := princomp2 C
  let c1 := pts.map fun q => q.1 * PC.a + q.2 * PC.c
  let c2 := pts.map fun q => q.1 * PC.b + q.2 * PC.d
  (|lmax c1 - lmin c1|, |lmax c2 - lmin c2|)

/-- Source `TreeSegment::getCircularity`: zeroes `scoreC`; under the guard it sets `scoreC` to
the ratio of the larger to the smaller ellipse parameter when the smaller is nonzero;
in every case it finally recomputes `scoreGlobal` as the mean of the four scores. -/
def getCircularity (s : State) : State :=
  let s0 := { s with scoreC := 0 }
  let s1 :=
    if s.area ≠ 0 ∧ 2 < s.points.length ∧ 2 < s.pointsCH.length then
      let E := findEllipseParameters s.pointsCH
      let A := if E.2 < E.1 then E.1 else E.2
      let B := if E.1 < E.2 then E.1 else E.2
      if B ≠ 0 then { s0 with scoreC := A / B } else s0
    else s0
  { s1 with scoreGlobal := (s1.scoreS + s1.scoreO + s1.scoreR + s1.scoreC) / 4 }

/-- Source `TreeSegment::getScore`: refreshes the four sub-scores in source order
(size, orientation, regularity, circularity; the last also finalises `scoreGlobal`).
The C++ function is declared to return `double` but contains no return statement, so
only the state effect is modelled. -/
def getScore (k : ℤ) (s : State) : State :=
  getCircularity (getRegularity (getOrientation (getSize k s)))

/-- The threshold of `TreeSegment::apply2DFilter`: mean of the planar distances from the
reference point `p0` to the neighbours plus twice their population standard deviation
(the sum of squared deviations is divided by the number of distances). -/
def a2fThreshold (p0 : PointXYZ) (ns : List PointXYZ) : ℝ :=
  let dist := ns.map (euclidianDistance2D_inZ p0)
  let mean := dist.sum / (ns.length : ℝ)
  let sd := Real.sqrt ((dist.map fun v => (v - mean) * (v - mean)).sum / (dist.length : ℝ))
  mean + 2 * sd

/-- The output loop of `TreeSegment::apply2DFilter`: walks the neighbour list and the
distance list in lockstep, appending neighbours while the distance stays at or below the
threshold, and stops at the first violation. -/
def a2fLoop (thr : ℝ) : List PointXYZ → List ℝ → List PointXYZ
  | q :: rt, d :: dt => if d ≤ thr then q :: a2fLoop thr rt dt else []
  | _, _ => []

/-- Source `TreeSegment::apply2DFilter`: element 0 of the input is the reference point; the
output is the reference point followed by the neighbours accepted by the prefix loop.
The source reads `subProfile[0]` unconditionally, so the empty input (undefined in the
source) is mapped to the empty output. -/
def apply2DFilter (subProfile : List PointXYZ) : List PointXYZ :=
  match subProfile with
  | [] => []
  | p0 :: rest =>
    p0 :: a2fLoop (a2fThreshold p0 rest) rest (rest.map (euclidianDistance2D_inZ p0))

/-- A finite sequence of `addPoint` calls applied to a tracker. -/
def applyList (s : State) (l : List PointXYZ) : State := l.foldl addPoint s

/-- A tracker start state as produced by one of the two constructors. -/
def IsStart (s : State) : Prop := s = mkEmpty ∨ ∃ pt, s = mkSeed pt

/-- A concrete tracker state with three points stored in ascending elevation order and a
three-vertex hull ring; it satisfies the guards of the scoring functions. -/
def stateA : State :=
  { nbPoints := 3,
    points := [⟨0, 0, 1, 0⟩, ⟨1, 0, 2, 1⟩, ⟨0, 1, 3, 2⟩],
    hull := [(0, 0), (1, 0), (0, 1)],
    pointsCH := [(0, 0), (1, 0), (0, 1)],
    area := 1, diff_area := 0, dist := 0, apex := (0, 0), Zmax := ⟨0, 0, 1, 0⟩,
    scoreS := 0, scoreO := 0, scoreC := 0, scoreR := 0, scoreGlobal := 0 }

/-- A concrete tracker state whose highest point is the origin at elevation 5 and whose
hull ring has twelve vertices on the x-axis, at distances 1..12 from the highest point. -/
def stateB : State :=
  { nbPoints := 3,
    points := [⟨0, 0, 5, 0⟩, ⟨1, 1, 1, 1⟩, ⟨2, 2, 2, 2⟩],
    hull := [(1, 0), (2, 0), (3, 0), (4, 0), (5, 0), (6, 0),
             (7, 0), (8, 0), (9, 0), (10, 0), (11, 0), (12, 0)],
    pointsCH := [(1, 0), (2, 0), (3, 0), (4, 0), (5, 0), (6, 0),
                 (7, 0), (8, 0), (9, 0), (10, 0), (11, 0), (12, 0)],
    area := 1, diff_area := 0, dist := 0, apex := (0, 0), Zmax := ⟨0, 0, 5, 0⟩,
    scoreS := 0, scoreO := 0, scoreC := 0, scoreR := 0, scoreGlobal := 0 }

/-- A concrete tracker state with two points on the x-axis, used to probe `testDist`. -/
def stateC : State :=
  { mkEmpty with nbPoints := 2, points := [⟨0, 0, 0, 0⟩, ⟨3, 0, 0, 1⟩] }

/-- A concrete tracker state with two points whose identifiers are 0 and 2, used to
probe `editIdResult`. -/
def stateD : State :=
  { mkEmpty with nbPoints := 2, points := [⟨0, 0, 0, 0⟩, ⟨0, 0, 0, 2⟩] }

/-- The containment invariant: every tracked point projects into the region spanned by
the current hull ring. -/
def Inv (s : State) : Prop :=
  ∀ q ∈ s.points, proj2 q ∈ convexHull ℝ (ringSet s.hull)

theorem calculateArea_Zmax (s : State) : (calculateArea s).Zmax = s.Zmax := by
  unfold calculateArea; split <;> rfl

theorem calculateArea_eq_self (s : State) (h : s.nbPoints ≤ 2) : calculateArea s = s := by
  unfold calculateArea; rw [if_pos h]

theorem addPoint_Zmax (s : State) (pt : PointXYZ) : (addPoint s pt).Zmax = s.Zmax := by
  unfold addPoint; split
  · rfl
  · rw [calculateArea_Zmax]

theorem calculateArea_hull (s : State) : (calculateArea s).hull = s.hull := by
  unfold calculateArea; split <;> rfl

theorem calculateArea_points (s : State) : (calculateArea s).points = s.points := by
  unfold calculateArea; split <;> rfl

theorem calculateArea_nbPoints (s : State) : (calculateArea s).nbPoints = s.nbPoints := by
  unfold calculateArea; split <;> rfl

theorem addPoint_nbPoints (s : State) (pt : PointXYZ) :
    (addPoint s pt).nbPoints = s.nbPoints + 1 := by
  unfold addPoint; split
  · rfl
  · rw [calculateArea_nbPoints]

theorem addPoint_points (s : State) (pt : PointXYZ) :
    (addPoint s pt).points = s.points ++ [pt] := by
  unfold addPoint; split
  · rfl
  · rw [calculateArea_points]

theorem applyList_nbPoints (l : List PointXYZ) :
    ∀ s : State, (applyList s l).nbPoints = s.nbPoints + l.length := by
  induction l with
  | nil => intro s; simp [applyList]
  | cons p t ih =>
    intro s
    show (applyList (addPoint s p) t).nbPoints = _
    rw [ih, addPoint_nbPoints]
    simp; omega

theorem ringSet_subset_append (l m : List Point2) : ringSet l ⊆ ringSet (l ++ m) := by
  intro p hp
  simp only [ringSet, Set.mem_setOf_eq, List.mem_append] at *
  exact Or.inl hp

theorem inv_addPoint {s : State} (h : Inv s) (pt : PointXYZ) : Inv (addPoint s pt) := by
  unfold addPoint
  by_cases hc : coveredBy (proj2 pt) s.hull
  · rw [if_pos hc]
    intro q hq
    rcases List.mem_append.mp hq with hq | hq
    · exact h q hq
    · rw [List.mem_singleton.mp hq]; exact hc
  · rw [if_neg hc]
    intro q hq
    rw [calculateArea_points] at hq
    rw [calculateArea_hull]
    rcases List.mem_append.mp hq with hq | hq
    · exact convexHull_mono (ringSet_subset_append _ _) (h q hq)
    · rw [List.mem_singleton.mp hq]
      refine subset_convexHull ℝ _ ?_
      simp [ringSet, bConvexHull]

theorem inv_applyList (l : List PointXYZ) :
    ∀ {s : State}, Inv s → Inv (applyList s l) := by
  induction l with
  | nil => intro s h; exact h
  | cons p t ih => intro s h; exact ih (inv_addPoint h p)

theorem inv_start {s : State} (h : IsStart s) : Inv s := by
  rcases h with h | ⟨pt, h⟩ <;> subst h
  · intro q hq; simp [mkEmpty] at hq
  · intro q hq
    simp only [mkSeed, List.mem_singleton] at hq
    subst hq
    exact subset_convexHull ℝ _ (by simp [ringSet, mkSeed])

/-- C1: for every tracker (as produced by one of the constructors) and every finite
sequence of `addPoint` calls applied to it, once `count ≥ 3` the 2D projection of every
point ever inserted is inside or on the boundary of the current convex hull (membership
in the convex region spanned by the hull ring). -/
theorem containment_invariant (s0 : State) (h0 : IsStart s0) (pts : List PointXYZ)
    (_h3 : 3 ≤ (applyList s0 pts).nbPoints) :
    ∀ q ∈ (applyList s0 pts).points,
      proj2 q ∈ convexHull ℝ (ringSet (applyList s0 pts).hull) :=
  inv_applyList pts (inv_start h0)

theorem containment_invariant_witness :
    IsStart (mkSeed ⟨0, 0, 0, 0⟩) ∧
    3 ≤ (applyList (mkSeed ⟨0, 0, 0, 0⟩) [⟨1, 0, 0, 1⟩, ⟨0, 1, 0, 2⟩]).nbPoints ∧
    ∀ q ∈ (applyList (mkSeed ⟨0, 0, 0, 0⟩) [⟨1, 0, 0, 1⟩, ⟨0, 1, 0, 2⟩]).points,
      proj2 q ∈
        convexHull ℝ (ringSet (applyList (mkSeed ⟨0, 0, 0, 0⟩) [⟨1, 0, 0, 1⟩, ⟨0, 1, 0, 2⟩]).hull) := by
  have hstart : IsStart (mkSeed ⟨0, 0, 0, 0⟩) := Or.inr ⟨_, rfl⟩
  have h3 : 3 ≤ (applyList (mkSeed ⟨0, 0, 0, 0⟩) [⟨1, 0, 0, 1⟩, ⟨0, 1, 0, 2⟩]).nbPoints := by
    rw [applyList_nbPoints]
    simp [mkSeed]
  exact ⟨hstart, h3, containment_invariant _ hstart _ h3⟩

/-- C7: inserting a point whose 2D projection is already covered by the current hull
changes nothing but `count` (incremented by 1) and `points` (the point is appended):
`area`, `hull`, `areaDelta` and every other field are untouched. -/
theorem addPoint_covered (s : State) (pt : PointXYZ)
    (h : coveredBy (proj2 pt) s.hull) :
    addPoint s pt = { s with nbPoints := s.nbPoints + 1, points := s.points ++ [pt] } := by
  unfold addPoint
  rw [if_pos h]

theorem addPoint_covered_witness :
    coveredBy (proj2 ⟨1, 2, 9, 4⟩) (mkSeed ⟨1, 2, 3, 0⟩).hull ∧
    addPoint (mkSeed ⟨1, 2, 3, 0⟩) ⟨1, 2, 9, 4⟩ =
      { mkSeed ⟨1, 2, 3, 0⟩ with
          nbPoints := (mkSeed ⟨1, 2, 3, 0⟩).nbPoints + 1,
          points := (mkSeed ⟨1, 2, 3, 0⟩).points ++ [⟨1, 2, 9, 4⟩] } := by
  have h : coveredBy (proj2 ⟨1, 2, 9, 4⟩) (mkSeed ⟨1, 2, 3, 0⟩).hull := by
    refine subset_convexHull ℝ _ ?_
    simp [ringSet, mkSeed, proj2]
  exact ⟨h, addPoint_covered _ _ h⟩

theorem sqrt_sq_of_nonneg {a b : ℝ} (h : a ^ 2 = b ^ 2) (hb : 0 ≤ b) :
    Real.sqrt (a ^ 2) = b := by
  rw [h]; exact Real.sqrt_sq hb

/-- C2 (code evaluation at the failing input): seed with P0 = (0,0,0) and call
`addPoint(P1)` with P1 = (3,4,0).  Afterwards `dist` is still 0 and `area` is still 0,
although the planar distance between P0 and P1 is 5: `addPoint` never computes the pair
distance, because `calculateArea` returns early whenever `nbPoints ≤ 2` — contradicting
its own comment, which promises a "new distance between points if there was no point or
only one point in the initial tree".  The intended computation exists only in
`updateArea` (used by tree merging), which on the same state does yield 5. -/
theorem addPoint_second_point_dist_zero :
    (addPoint (mkSeed ⟨0, 0, 0, 0⟩) ⟨3, 4, 0, 1⟩).dist = 0 ∧
    (addPoint (mkSeed ⟨0, 0, 0, 0⟩) ⟨3, 4, 0, 1⟩).area = 0 ∧
    euclidianDistance2D_inZ ⟨0, 0, 0, 0⟩ ⟨3, 4, 0, 1⟩ = 5 ∧
    (updateArea (addPoint (mkSeed ⟨0, 0, 0, 0⟩) ⟨3, 4, 0, 1⟩)).dist = 5 ∧
    (0 : ℝ) ≠ 5 := by
  have h5 : Real.sqrt (((0 : ℝ) - 3) ^ 2 + ((0 : ℝ) - 4) ^ 2) = 5 := by
    rw [show ((0 : ℝ) - 3) ^ 2 + ((0 : ℝ) - 4) ^ 2 = 5 ^ 2 by norm_num]
    exact Real.sqrt_sq (by norm_num)
  have hpts : (addPoint (mkSeed ⟨0, 0, 0, 0⟩) ⟨3, 4, 0, 1⟩).points =
      [⟨0, 0, 0, 0⟩, ⟨3, 4, 0, 1⟩] := by
    rw [addPoint_points]; rfl
  have hnb : (addPoint (mkSeed ⟨0, 0, 0, 0⟩) ⟨3, 4, 0, 1⟩).nbPoints = 2 := by
    rw [addPoint_nbPoints]; rfl
  refine ⟨?_, ?_, ?_, ?_, by norm_num⟩
  · unfold addPoint
    split
    · rfl
    · rw [calculateArea_eq_self _ (by exact le_refl 2)]
      rfl
  · unfold addPoint
    split
    · rfl
    · rw [calculateArea_eq_self _ (by exact le_refl 2)]
      rfl
  · show Real.sqrt (((0 : ℝ) - 3) ^ 2 + ((0 : ℝ) - 4) ^ 2) = 5
    exact h5
  · unfold updateArea
    rw [if_neg (by rw [hnb]; norm_num), if_pos hnb]
    show Real.sqrt _ = 5
    rw [hpts]
    exact h5

/-- C4 (code evaluation at the failing input): seed with z = 1, then add a point with
z = 10.  `getSize` reads its elevation maximum H through `findZMax`, which returns the
cached `Zmax.z` — still 1 — although a tracked point with z = 10 is present, so the value
used is not the maximum elevation over the current points.  `findZMax` contradicts its
own comment ("returns highest Z value in points of tree"): `addPoint` never refreshes
`Zmax`; only the `getZMax` calls inside `getOrientation`/`getRegularity` do. -/
theorem findZMax_stale :
    findZMax (addPoint (mkSeed ⟨0, 0, 1, 0⟩) ⟨1, 0, 10, 1⟩) = 1 ∧
    (⟨1, 0, 10, 1⟩ : PointXYZ) ∈ (addPoint (mkSeed ⟨0, 0, 1, 0⟩) ⟨1, 0, 10, 1⟩).points ∧
    ¬ (∀ q ∈ (addPoint (mkSeed ⟨0, 0, 1, 0⟩) ⟨1, 0, 10, 1⟩).points,
        q.z ≤ findZMax (addPoint (mkSeed ⟨0, 0, 1, 0⟩) ⟨1, 0, 10, 1⟩)) := by
  have hz : findZMax (addPoint (mkSeed ⟨0, 0, 1, 0⟩) ⟨1, 0, 10, 1⟩) = 1 := by
    unfold findZMax
    rw [addPoint_Zmax]
    rfl
  have hmem : (⟨1, 0, 10, 1⟩ : PointXYZ) ∈
      (addPoint (mkSeed ⟨0, 0, 1, 0⟩) ⟨1, 0, 10, 1⟩).points := by
    rw [addPoint_points]; simp
  refine ⟨hz, hmem, fun h => ?_⟩
  have := h _ hmem
  rw [hz] at this
  norm_num at this

/-- C6 counterexample: the claim asserts that in the degenerate state
`area = 0 ∧ pairDistance = 0` the density computation of `getSize` takes a guarded
fallback, i.e. the selected divisor is never zero.  A freshly seeded tracker is exactly
that degenerate state, and the divisor `getSize` selects on it is 0: there is no guard
(`if (area != 0) D = nbPoints / area; else D = nbPoints / dist;`). -/
theorem sizeDivisor_counterexample :
    ¬ ∀ s : State, s.area = 0 → s.dist = 0 → sizeDivisor s ≠ 0 := by
  intro h
  exact h (mkSeed ⟨0, 0, 0, 0⟩) rfl rfl (by simp [sizeDivisor, mkSeed])

/-- C6 amended: `getSize` takes no guarded fallback branch.  Whenever `area = 0` the
density divisor it selects is `dist` itself, so in the degenerate state
`area = 0 ∧ dist = 0` the division `nbPoints / dist` is performed with divisor 0 (under
IEEE arithmetic this yields NaN/Inf; the zero-divisor branch is reachable, not guarded
against). -/
theorem sizeDivisor_degenerate (s : State) (ha : s.area = 0) :
    sizeDivisor s = s.dist ∧ (s.dist = 0 → sizeDivisor s = 0) := by
  have h : sizeDivisor s = s.dist := by
    unfold sizeDivisor
    rw [if_neg (by rw [ha]; simp)]
  exact ⟨h, fun hd => by rw [h, hd]⟩

theorem zsortDesc_perm (l : List PointXYZ) : List.Perm (zsortDesc l) l :=
  List.perm_insertionSort _ _

theorem getSize_frame (k : ℤ) (s : State) :
    (getSize k s).points = s.points ∧ (getSize k s).hull = s.hull ∧
      (getSize k s).pointsCH = s.pointsCH := by
  simp only [getSize]
  split_ifs <;> exact ⟨rfl, rfl, rfl⟩

theorem getOrientation_points_eq (s : State) :
    (getOrientation s).points =
      if s.area ≠ 0 ∧ 2 < s.points.length ∧ 2 < s.pointsCH.length then zsortDesc s.points
      else s.points := by
  simp only [getOrientation]
  split_ifs <;> rfl

theorem getOrientation_frame (s : State) :
    (getOrientation s).hull = s.hull ∧ (getOrientation s).pointsCH = s.pointsCH := by
  simp only [getOrientation]
  split_ifs <;> exact ⟨rfl, rfl⟩

theorem getRegularity_points_eq (s : State) :
    (getRegularity s).points =
      if s.area ≠ 0 ∧ 2 < s.nbPoints ∧ 2 < s.pointsCH.length then zsortDesc s.points
      else s.points := by
  simp only [getRegularity]
  split_ifs <;> rfl

theorem getRegularity_frame (s : State) :
    (getRegularity s).hull = s.hull ∧ (getRegularity s).pointsCH = s.pointsCH := by
  simp only [getRegularity]
  split_ifs <;> exact ⟨rfl, rfl⟩

theorem getCircularity_frame (s : State) :
    (getCircularity s).points = s.points ∧ (getCircularity s).hull = s.hull ∧
      (getCircularity s).pointsCH = s.pointsCH := by
  simp only [getCircularity]
  split_ifs <;> exact ⟨rfl, rfl, rfl⟩

theorem getOrientation_points_perm (s : State) :
    List.Perm (getOrientation s).points s.points := by
  rw [getOrientation_points_eq]
  split
  · exact zsortDesc_perm _
  · exact List.Perm.refl _

theorem getRegularity_points_perm (s : State) :
    List.Perm (getRegularity s).points s.points := by
  rw [getRegularity_points_eq]
  split
  · exact zsortDesc_perm _
  · exact List.Perm.refl _

/-- C3 counterexample: scoring is not pure.  On the concrete tracker `stateA` (whose
points are stored in ascending elevation order and which satisfies the scoring guards),
`getOrientation` re-sorts `points` by descending elevation, so the points sequence after
scoring differs from the one before — refuting the claim that every scoring operation
leaves the points sequence and the hull unchanged. -/
theorem scoring_purity_counterexample :
    ¬ ∀ (s : State) (k : ℤ),
        (getSize k s).points = s.points ∧ (getSize k s).hull = s.hull ∧
        (getOrientation s).points = s.points ∧ (getOrientation s).hull = s.hull ∧
        (getRegularity s).points = s.points ∧ (getRegularity s).hull = s.hull ∧
        (getCircularity s).points = s.points ∧ (getCircularity s).hull = s.hull ∧
        (getScore k s).points = s.points ∧ (getScore k s).hull = s.hull := by
  intro h
  obtain ⟨-, -, h3, -⟩ := h stateA 1
  rw [getOrientation_points_eq,
    if_pos ⟨by norm_num [stateA], by simp [stateA], by simp [stateA]⟩] at h3
  have hsort : zsortDesc stateA.points = [⟨0, 1, 3, 2⟩, ⟨1, 0, 2, 1⟩, ⟨0, 0, 1, 0⟩] := by
    show List.insertionSort ZSortPointBis _ = _
    norm_num [stateA, List.insertionSort, List.orderedInsert, ZSortPointBis]
  rw [hsort] at h3
  have h3z := congrArg (fun l => (l.headD default).z) h3
  norm_num [stateA] at h3z

/-- C3 amended: every scoring operation leaves `hull` and `pointsCH` unchanged and
preserves the points sequence as a multiset; `getSize` and `getCircularity` leave the
points sequence entirely unchanged, but `getOrientation` and `getRegularity` (and hence
`getScore`) re-sort `points` by descending elevation, so after scoring the sequence is a
permutation of the original and the insertion order is in general not preserved. -/
theorem scoring_frame (s : State) (k : ℤ) :
    ((getSize k s).points = s.points ∧ (getSize k s).hull = s.hull ∧
      (getSize k s).pointsCH = s.pointsCH) ∧
    (List.Perm (getOrientation s).points s.points ∧ (getOrientation s).hull = s.hull ∧
      (getOrientation s).pointsCH = s.pointsCH) ∧
    (List.Perm (getRegularity s).points s.points ∧ (getRegularity s).hull = s.hull ∧
      (getRegularity s).pointsCH = s.pointsCH) ∧
    ((getCircularity s).points = s.points ∧ (getCircularity s).hull = s.hull ∧
      (getCircularity s).pointsCH = s.pointsCH) ∧
    (List.Perm (getScore k s).points s.points ∧ (getScore k s).hull = s.hull ∧
      (getScore k s).pointsCH = s.pointsCH) := by
  refine ⟨getSize_frame k s,
    ⟨getOrientation_points_perm s, (getOrientation_frame s).1, (getOrientation_frame s).2⟩,
    ⟨getRegularity_points_perm s, (getRegularity_frame s).1, (getRegularity_frame s).2⟩,
    getCircularity_frame s, ?_, ?_, ?_⟩
  · show List.Perm (getCircularity (getRegularity (getOrientation (getSize k s)))).points _
    rw [(getCircularity_frame _).1]
    refine ((getRegularity_points_perm _).trans ?_)
    refine ((getOrientation_points_perm _).trans ?_)
    rw [(getSize_frame k s).1]
  · show (getCircularity (getRegularity (getOrientation (getSize k s)))).hull = _
    rw [(getCircularity_frame _).2.1, (getRegularity_frame _).1, (getOrientation_frame _).1,
      (getSize_frame k s).2.1]
  · show (getCircularity (getRegularity (getOrientation (getSize k s)))).pointsCH = _
    rw [(getCircularity_frame _).2.2, (getRegularity_frame _).2, (getOrientation_frame _).2,
      (getSize_frame k s).2.2]

theorem euclid_origin_axis (zc : ℝ) (i : ℕ) (r : ℝ) :
    euclidianDistance2D_inZ ⟨0, 0, zc, i⟩ ⟨r, 0, 0, 0⟩ = |r| := by
  show Real.sqrt ((0 - r) ^ 2 + ((0 : ℝ) - 0) ^ 2) = |r|
  rw [show ((0 : ℝ) - r) ^ 2 + ((0 : ℝ) - 0) ^ 2 = r ^ 2 by ring]
  exact Real.sqrt_sq_eq_abs r

theorem highestOf_stateB : highestOf stateB = ⟨0, 0, 5, 0⟩ := by
  norm_num [highestOf, zsortDesc, stateB, List.insertionSort, List.orderedInsert,
    ZSortPointBis]

theorem regDists_stateB :
    regDists stateB = [1, 2, 3, 4, 5, 6, 7, 8, 9, 10, 11, 12] := by
  unfold regDists
  simp only [highestOf_stateB]
  norm_num [stateB, euclid_origin_axis]

theorem sorted_regDists_stateB :
    (regDists stateB).insertionSort (· ≤ ·) = [1, 2, 3, 4, 5, 6, 7, 8, 9, 10, 11, 12] := by
  rw [regDists_stateB]
  exact List.Sorted.insertionSort_eq (by norm_num [List.sorted_cons])

theorem getRegularity_stateB_scoreR :
    (getRegularity stateB).scoreR = 1 / (Real.pi * 11 * 11) := by
  have hguard : stateB.area ≠ 0 ∧ 2 < stateB.nbPoints ∧ 2 < stateB.pointsCH.length :=
    ⟨by norm_num [stateB], by simp [stateB], by simp [stateB]⟩
  simp only [getRegularity, if_pos hguard]
  rw [sorted_regDists_stateB]
  have hround : round ((([(1 : ℝ), 2, 3, 4, 5, 6, 7, 8, 9, 10, 11, 12].length : ℕ) : ℝ) * 0.95)
      = 11 := by
    norm_num [round_eq]
  rw [hround]
  rw [show (([1, 2, 3, 4, 5, 6, 7, 8, 9, 10, 11, 12] : List ℝ).getD ((11 - 1 : ℤ).toNat) 0) = 11
    from rfl]
  norm_num [stateB]

/-- C5 counterexample: the claim says `getRegularity` takes the radius at the
`ceil(0.95 x vertexCount)`-th smallest distance (1-indexed); the source computes
`round(size * 0.95)`.  On `stateB` — 12 hull-ring vertices at distances 1..12 from the
highest point — the code picks the 11th smallest distance (11) while the ceil rule picks
the 12th (12), and the resulting scores differ. -/
theorem regularity_ceil_counterexample :
    ¬ ∀ s : State, s.area ≠ 0 → 2 < s.nbPoints → 2 < s.pointsCH.length →
        (getRegularity s).scoreR =
          s.area / (Real.pi *
            ((regDists s).insertionSort (· ≤ ·)).getD
              ((⌈(s.pointsCH.length : ℝ) * 0.95⌉ - 1).toNat) 0 *
            ((regDists s).insertionSort (· ≤ ·)).getD
              ((⌈(s.pointsCH.length : ℝ) * 0.95⌉ - 1).toNat) 0) := by
  intro h
  have hB := h stateB (by norm_num [stateB]) (by simp [stateB]) (by simp [stateB])
  rw [getRegularity_stateB_scoreR, sorted_regDists_stateB] at hB
  have hceil : ⌈((stateB.pointsCH.length : ℕ) : ℝ) * 0.95⌉ = (12 : ℤ) := by
    show ((⌈((stateB.pointsCH.length : ℕ) : ℝ) * 0.95⌉ : ℤ)) = 12
    have h12 : ((stateB.pointsCH.length : ℕ) : ℝ) = 12 := by norm_num [stateB]
    rw [h12, Int.ceil_eq_iff]
    norm_num
  rw [hceil] at hB
  rw [show (([1, 2, 3, 4, 5, 6, 7, 8, 9, 10, 11, 12] : List ℝ).getD ((12 - 1 : ℤ).toNat) 0) = 12
    from rfl] at hB
  rw [show stateB.area = 1 from rfl] at hB
  rw [div_eq_div_iff (by positivity) (by positivity)] at hB
  nlinarith [Real.pi_pos]

/-- C5 amended: with `round` in place of `ceil` the percentile rule holds.  For every
tracker passing the guards (`area ≠ 0`, `count > 2`, hull-ring vertex count > 2) and
every ascending sorting `l` of the planar distances from the highest point to the
hull-ring vertices, `getRegularity` sets `scoreR = area / (π · r · r)` where `r` is the
`round(0.95 x vertexCount)`-th smallest distance (1-indexed). -/
theorem regularity_round_percentile (s : State) (l : List ℝ)
    (ha : s.area ≠ 0) (hn : 2 < s.nbPoints) (hch : 2 < s.pointsCH.length)
    (hperm : List.Perm l (regDists s)) (hsort : l.Sorted (· ≤ ·)) :
    (getRegularity s).scoreR =
      s.area / (Real.pi *
        l.getD ((round ((s.pointsCH.length : ℝ) * 0.95) - 1).toNat) 0 *
        l.getD ((round ((s.pointsCH.length : ℝ) * 0.95) - 1).toNat) 0) := by
  have hl : l = (regDists s).insertionSort (· ≤ ·) :=
    List.eq_of_perm_of_sorted (hperm.trans (List.perm_insertionSort _ _).symm) hsort
      (List.sorted_insertionSort _ _)
  have hlen : ((regDists s).insertionSort (· ≤ ·)).length = s.pointsCH.length := by
    rw [(List.perm_insertionSort (· ≤ ·) (regDists s)).length_eq]
    unfold regDists
    exact List.length_map _ _
  subst hl
  have hg : s.area ≠ 0 ∧ 2 < s.nbPoints ∧ 2 < s.pointsCH.length := ⟨ha, hn, hch⟩
  simp only [getRegularity, if_pos hg]
  rw [hlen]

theorem regularity_round_percentile_witness :
    stateB.area ≠ 0 ∧ 2 < stateB.nbPoints ∧ 2 < stateB.pointsCH.length ∧
    List.Perm [(1 : ℝ), 2, 3, 4, 5, 6, 7, 8, 9, 10, 11, 12] (regDists stateB) ∧
    List.Sorted (· ≤ ·) [(1 : ℝ), 2, 3, 4, 5, 6, 7, 8, 9, 10, 11, 12] ∧
    (getRegularity stateB).scoreR =
      stateB.area / (Real.pi *
        List.getD [(1 : ℝ), 2, 3, 4, 5, 6, 7, 8, 9, 10, 11, 12]
          ((round ((stateB.pointsCH.length : ℝ) * 0.95) - 1).toNat) 0 *
        List.getD [(1 : ℝ), 2, 3, 4, 5, 6, 7, 8, 9, 10, 11, 12]
          ((round ((stateB.pointsCH.length : ℝ) * 0.95) - 1).toNat) 0) := by
  have hperm : List.Perm [(1 : ℝ), 2, 3, 4, 5, 6, 7, 8, 9, 10, 11, 12] (regDists stateB) := by
    rw [regDists_stateB]
  have hsort : List.Sorted (· ≤ ·) [(1 : ℝ), 2, 3, 4, 5, 6, 7, 8, 9, 10, 11, 12] := by
    norm_num [List.sorted_cons]
  exact ⟨by norm_num [stateB], by simp [stateB], by simp [stateB], hperm, hsort,
    regularity_round_percentile stateB _ (by norm_num [stateB]) (by simp [stateB])
      (by simp [stateB]) hperm hsort⟩

theorem sizeDivisor_degenerate_witness :
    (mkSeed ⟨0, 0, 0, 0⟩).area = 0 ∧
    (sizeDivisor (mkSeed ⟨0, 0, 0, 0⟩) = (mkSeed ⟨0, 0, 0, 0⟩).dist ∧
      ((mkSeed ⟨0, 0, 0, 0⟩).dist = 0 → sizeDivisor (mkSeed ⟨0, 0, 0, 0⟩) = 0)) :=
  ⟨rfl, sizeDivisor_degenerate _ rfl⟩

theorem a2fLoop_spec (thr : ℝ) (f : PointXYZ → ℝ) :
    ∀ ns : List PointXYZ,
      ∃ k, k ≤ ns.length ∧
        a2fLoop thr ns (ns.map f) = ns.take k ∧
        (∀ q ∈ ns.take k, f q ≤ thr) ∧
        (k = ns.length ∨ thr < f (ns.getD k default)) := by
  intro ns
  induction ns with
  | nil => exact ⟨0, le_refl 0, rfl, by simp, Or.inl rfl⟩
  | cons q t ih =>
    by_cases h : f q ≤ thr
    · obtain ⟨k, hk, heq, hall, hlast⟩ := ih
      refine ⟨k + 1, by simpa using hk, ?_, ?_, ?_⟩
      · show a2fLoop thr (q :: t) (f q :: t.map f) = q :: t.take k
        unfold a2fLoop
        rw [if_pos h, heq]
      · intro r hr
        rcases List.mem_cons.mp hr with hr | hr
        · rw [hr]; exact h
        · exact hall r hr
      · rcases hlast with hlast | hlast
        · exact Or.inl (by simp [hlast])
        · exact Or.inr (by simpa using hlast)
    · refine ⟨0, Nat.zero_le _, ?_, by simp, Or.inr ?_⟩
      · show a2fLoop thr (q :: t) (f q :: t.map f) = []
        unfold a2fLoop
        rw [if_neg h]
      · simpa using lt_of_not_le h

/-- C8: for a reference point followed by at least one neighbour, `apply2DFilter` uses
the threshold mean + 2 x population standard deviation of the planar reference-to-
neighbour distances, and outputs the reference point followed by exactly a maximal
prefix of the neighbour list whose distances are at or below the threshold: everything
from the first violator on is dropped, even neighbours individually within threshold. -/
theorem apply2DFilter_prefix (p0 : PointXYZ) (ns : List PointXYZ) (_hne : ns ≠ []) :
    a2fThreshold p0 ns =
      (ns.map (euclidianDistance2D_inZ p0)).sum / (ns.length : ℝ) +
        2 * Real.sqrt
          (((ns.map (euclidianDistance2D_inZ p0)).map fun v =>
              (v - (ns.map (euclidianDistance2D_inZ p0)).sum / (ns.length : ℝ)) *
                (v - (ns.map (euclidianDistance2D_inZ p0)).sum / (ns.length : ℝ))).sum /
            ((ns.map (euclidianDistance2D_inZ p0)).length : ℝ)) ∧
    ∃ k, k ≤ ns.length ∧
      apply2DFilter (p0 :: ns) = p0 :: ns.take k ∧
      (∀ q ∈ ns.take k, euclidianDistance2D_inZ p0 q ≤ a2fThreshold p0 ns) ∧
      (k = ns.length ∨ a2fThreshold p0 ns < euclidianDistance2D_inZ p0 (ns.getD k default)) := by
  refine ⟨rfl, ?_⟩
  obtain ⟨k, hk, heq, hall, hlast⟩ :=
    a2fLoop_spec (a2fThreshold p0 ns) (euclidianDistance2D_inZ p0) ns
  refine ⟨k, hk, ?_, hall, hlast⟩
  show p0 :: a2fLoop (a2fThreshold p0 ns) ns (ns.map (euclidianDistance2D_inZ p0)) =
    p0 :: ns.take k
  rw [heq]

theorem apply2DFilter_prefix_witness :
    ([⟨1, 0, 0, 1⟩] : List PointXYZ) ≠ [] ∧
    (a2fThreshold ⟨0, 0, 0, 0⟩ [⟨1, 0, 0, 1⟩] =
      ([⟨1, 0, 0, 1⟩].map (euclidianDistance2D_inZ ⟨0, 0, 0, 0⟩)).sum /
          (([⟨1, 0, 0, 1⟩] : List PointXYZ).length : ℝ) +
        2 * Real.sqrt
          ((([⟨1, 0, 0, 1⟩].map (euclidianDistance2D_inZ ⟨0, 0, 0, 0⟩)).map fun v =>
              (v - ([⟨1, 0, 0, 1⟩].map (euclidianDistance2D_inZ ⟨0, 0, 0, 0⟩)).sum /
                  (([⟨1, 0, 0, 1⟩] : List PointXYZ).length : ℝ)) *
                (v - ([⟨1, 0, 0, 1⟩].map (euclidianDistance2D_inZ ⟨0, 0, 0, 0⟩)).sum /
                  (([⟨1, 0, 0, 1⟩] : List PointXYZ).length : ℝ))).sum /
            (([⟨1, 0, 0, 1⟩].map (euclidianDistance2D_inZ ⟨0, 0, 0, 0⟩)).length : ℝ)) ∧
      ∃ k, k ≤ ([⟨1, 0, 0, 1⟩] : List PointXYZ).length ∧
        apply2DFilter [⟨0, 0, 0, 0⟩, ⟨1, 0, 0, 1⟩] = ⟨0, 0, 0, 0⟩ :: [⟨1, 0, 0, 1⟩].take k ∧
        (∀ q ∈ ([⟨1, 0, 0, 1⟩] : List PointXYZ).take k,
          euclidianDistance2D_inZ ⟨0, 0, 0, 0⟩ q ≤ a2fThreshold ⟨0, 0, 0, 0⟩ [⟨1, 0, 0, 1⟩]) ∧
        (k = ([⟨1, 0, 0, 1⟩] : List PointXYZ).length ∨
          a2fThreshold ⟨0, 0, 0, 0⟩ [⟨1, 0, 0, 1⟩] <
            euclidianDistance2D_inZ ⟨0, 0, 0, 0⟩ ([⟨1, 0, 0, 1⟩].getD k default))) :=
  ⟨by simp, apply2DFilter_prefix ⟨0, 0, 0, 0⟩ [⟨1, 0, 0, 1⟩] (by simp)⟩

theorem sqrt_form_eq_euclid (a b : PointXYZ) :
    Real.sqrt ((a.x - b.x) ^ 2 + (a.y - b.y) ^ 2) = euclidianDistance2D_inZ b a := by
  unfold euclidianDistance2D_inZ
  congr 1
  ring

theorem tdLoop_result_mem (pt : PointXYZ) :
    ∀ (l : List PointXYZ) (v : ℝ) (kp : PointXYZ),
      tdLoop pt l v kp = kp ∨ tdLoop pt l v kp ∈ l := by
  intro l
  induction l with
  | nil => intro v kp; exact Or.inl rfl
  | cons q t ih =>
    intro v kp
    simp only [tdLoop]
    by_cases h : euclidianDistance2D_inZ pt q < v
    · rw [if_pos h]
      rcases ih (euclidianDistance2D_inZ pt q) q with h2 | h2
      · exact Or.inr (by rw [h2]; exact List.mem_cons_self q t)
      · exact Or.inr (List.mem_cons_of_mem q h2)
    · rw [if_neg h]
      rcases ih v kp with h2 | h2
      · exact Or.inl h2
      · exact Or.inr (List.mem_cons_of_mem q h2)

theorem tdLoop_min (pt : PointXYZ) :
    ∀ (l : List PointXYZ) (kp : PointXYZ),
      euclidianDistance2D_inZ pt (tdLoop pt l (euclidianDistance2D_inZ pt kp) kp) ≤
          euclidianDistance2D_inZ pt kp ∧
        ∀ q ∈ l,
          euclidianDistance2D_inZ pt (tdLoop pt l (euclidianDistance2D_inZ pt kp) kp) ≤
            euclidianDistance2D_inZ pt q := by
  intro l
  induction l with
  | nil => intro kp; exact ⟨le_refl _, by simp⟩
  | cons q t ih =>
    intro kp
    by_cases h : euclidianDistance2D_inZ pt q < euclidianDistance2D_inZ pt kp
    · have hstep : tdLoop pt (q :: t) (euclidianDistance2D_inZ pt kp) kp =
          tdLoop pt t (euclidianDistance2D_inZ pt q) q := by
        simp only [tdLoop]; rw [if_pos h]
      rw [hstep]
      obtain ⟨h1, h2⟩ := ih q
      refine ⟨h1.trans (le_of_lt h), fun r hr => ?_⟩
      rcases List.mem_cons.mp hr with hr | hr
      · rw [hr]; exact h1
      · exact h2 r hr
    · have hstep : tdLoop pt (q :: t) (euclidianDistance2D_inZ pt kp) kp =
          tdLoop pt t (euclidianDistance2D_inZ pt kp) kp := by
        simp only [tdLoop]; rw [if_neg h]
      rw [hstep]
      obtain ⟨h1, h2⟩ := ih kp
      refine ⟨h1, fun r hr => ?_⟩
      rcases List.mem_cons.mp hr with hr | hr
      · rw [hr]; exact h1.trans (le_of_not_lt h)
      · exact h2 r hr

/-- C9: on a tracker whose `count` matches its point list (the tracker invariant) with
at least one point, `testDist pt` returns the minimum planar distance from `pt` to an
existing member: it equals the distance to some member that is at least as close as
every member.  With a single point this is the distance to the sole existing point. -/
theorem testDist_min (s : State) (pt : PointXYZ)
    (hlen : s.nbPoints = s.points.length) (hne : s.points ≠ []) :
    ∃ q ∈ s.points,
      testDist s pt = euclidianDistance2D_inZ pt q ∧
        ∀ r ∈ s.points, euclidianDistance2D_inZ pt q ≤ euclidianDistance2D_inZ pt r := by
  obtain ⟨q0, t, hpts⟩ := List.exists_cons_of_ne_nil hne
  unfold testDist
  by_cases h1 : s.nbPoints = 1
  · rw [if_pos h1]
    have hlist : s.points = [q0] := by
      have hlen1 : s.points.length = 1 := by rw [← hlen, h1]
      rw [hpts] at hlen1 ⊢
      simp only [List.length_cons, Nat.add_left_eq_self] at hlen1
      rw [List.length_eq_zero] at hlen1
      rw [hlen1]
    refine ⟨q0, by rw [hlist]; exact List.mem_cons_self _ _, ?_, ?_⟩
    · rw [hlist]
      exact sqrt_form_eq_euclid q0 pt
    · intro r hr
      rw [hlist, List.mem_singleton] at hr
      rw [hr]
  · rw [if_neg h1]
    have hhead : s.points.headD default = q0 := by rw [hpts]; rfl
    obtain ⟨h1le, hall⟩ := tdLoop_min pt s.points (s.points.headD default)
    refine ⟨tdLoop pt s.points (euclidianDistance2D_inZ pt (s.points.headD default))
      (s.points.headD default), ?_, sqrt_form_eq_euclid _ pt, hall⟩
    rcases tdLoop_result_mem pt s.points
      (euclidianDistance2D_inZ pt (s.points.headD default)) (s.points.headD default)
      with h2 | h2
    · rw [h2, hhead, hpts]; exact List.mem_cons_self _ _
    · exact h2

theorem testDist_min_witness :
    stateC.nbPoints = stateC.points.length ∧ stateC.points ≠ [] ∧
    ∃ q ∈ stateC.points,
      testDist stateC ⟨4, 0, 0, 9⟩ = euclidianDistance2D_inZ ⟨4, 0, 0, 9⟩ q ∧
        ∀ r ∈ stateC.points,
          euclidianDistance2D_inZ ⟨4, 0, 0, 9⟩ q ≤ euclidianDistance2D_inZ ⟨4, 0, 0, 9⟩ r :=
  ⟨rfl, by simp [stateC], testDist_min stateC ⟨4, 0, 0, 9⟩ rfl (by simp [stateC])⟩

theorem editIdLoop_preserves_nonzero (index : ℤ) :
    ∀ (pts : List PointXYZ) (l : List ℤ) (j : ℕ), l.getD j 0 ≠ 0 →
      (editIdLoop index pts l).getD j 0 = l.getD j 0 := by
  intro pts
  induction pts with
  | nil => intro l j _; rfl
  | cons p t ih =>
    intro l j h
    show (editIdLoop index t (if l.getD p.id 0 = 0 then l.set p.id index else l)).getD j 0 = _
    by_cases hc : l.getD p.id 0 = 0
    · rw [if_pos hc]
      have hne : p.id ≠ j := fun he => h (he ▸ hc)
      have hset : (l.set p.id index).getD j 0 = l.getD j 0 := by
        rw [List.getD_eq_getElem?_getD, List.getElem?_set_ne hne, ← List.getD_eq_getElem?_getD]
      rw [ih _ j (by rw [hset]; exact h), hset]
    · rw [if_neg hc]
      exact ih l j h

theorem editIdLoop_preserves_written (index : ℤ) :
    ∀ (pts : List PointXYZ) (l : List ℤ) (j : ℕ), l.getD j 0 = index →
      (editIdLoop index pts l).getD j 0 = index := by
  intro pts
  induction pts with
  | nil => intro l j h; exact h
  | cons p t ih =>
    intro l j h
    show (editIdLoop index t (if l.getD p.id 0 = 0 then l.set p.id index else l)).getD j 0 = index
    by_cases hc : l.getD p.id 0 = 0
    · rw [if_pos hc]
      apply ih
      by_cases hj : p.id = j
      · subst hj
        by_cases hr : p.id < l.length
        · rw [List.getD_eq_getElem?_getD, List.getElem?_set_self hr, Option.getD_some]
        · rw [List.set_eq_of_length_le (le_of_not_lt hr)]
          exact h
      · rw [List.getD_eq_getElem?_getD, List.getElem?_set_ne hj, ← List.getD_eq_getElem?_getD]
        exact h
    · rw [if_neg hc]
      exact ih l j h

theorem editIdLoop_sets_zero (index : ℤ) :
    ∀ (pts : List PointXYZ) (l : List ℤ), (∀ q ∈ pts, q.id < l.length) →
      ∀ q ∈ pts, l.getD q.id 0 = 0 →
        (editIdLoop index pts l).getD q.id 0 = index := by
  intro pts
  induction pts with
  | nil => intro l _ q hq; exact absurd hq (List.not_mem_nil q)
  | cons p t ih =>
    intro l hids q hq hq0
    show (editIdLoop index t (if l.getD p.id 0 = 0 then l.set p.id index else l)).getD q.id 0
      = index
    rcases List.mem_cons.mp hq with hqp | hqt
    · subst hqp
      rw [if_pos hq0]
      apply editIdLoop_preserves_written
      rw [List.getD_eq_getElem?_getD,
        List.getElem?_set_self (hids q (List.mem_cons_self q t)), Option.getD_some]
    · by_cases hc : l.getD p.id 0 = 0
      · rw [if_pos hc]
        by_cases hj : p.id = q.id
        · apply editIdLoop_preserves_written
          rw [← hj, List.getD_eq_getElem?_getD,
            List.getElem?_set_self (hids p (List.mem_cons_self p t)), Option.getD_some]
        · refine ih _ (fun r hr => ?_) q hqt ?_
          · rw [List.length_set]; exact hids r (List.mem_cons_of_mem p hr)
          · rw [List.getD_eq_getElem?_getD, List.getElem?_set_ne hj, ← List.getD_eq_getElem?_getD]
            exact hq0
      · rw [if_neg hc]
        exact ih l (fun r hr => hids r (List.mem_cons_of_mem p hr)) q hqt hq0

/-- C10 (implicit): provided every relevant point identifier is a valid slot of
`idResult`, a call `editIdResult(idResult, index)` (i) leaves every slot that was
nonzero before the call unchanged, (ii) ends with every looped-over point's slot that
was 0 holding `index`, and (iii) increments `index` by exactly 1, regardless of how many
slots were written. -/
theorem editIdResult_spec (s : State) (idResult : List ℤ) (index : ℤ)
    (hids : ∀ q ∈ s.points.take s.nbPoints, q.id < idResult.length) :
    (∀ j : ℕ, idResult.getD j 0 ≠ 0 →
      (editIdResult s idResult index).1.getD j 0 = idResult.getD j 0) ∧
    (∀ q ∈ s.points.take s.nbPoints, idResult.getD q.id 0 = 0 →
      (editIdResult s idResult index).1.getD q.id 0 = index) ∧
    (editIdResult s idResult index).2 = index + 1 := by
  refine ⟨?_, ?_, rfl⟩
  · intro j hj
    exact editIdLoop_preserves_nonzero index _ idResult j hj
  · intro q hq hq0
    exact editIdLoop_sets_zero index _ idResult hids q hq hq0

theorem editIdResult_spec_witness :
    (∀ q ∈ stateD.points.take stateD.nbPoints, q.id < ([0, 7, 0] : List ℤ).length) ∧
    ((∀ j : ℕ, ([0, 7, 0] : List ℤ).getD j 0 ≠ 0 →
        (editIdResult stateD [0, 7, 0] 5).1.getD j 0 = ([0, 7, 0] : List ℤ).getD j 0) ∧
      (∀ q ∈ stateD.points.take stateD.nbPoints, ([0, 7, 0] : List ℤ).getD q.id 0 = 0 →
        (editIdResult stateD [0, 7, 0] 5).1.getD q.id 0 = 5) ∧
      (editIdResult stateD [0, 7, 0] 5).2 = 5 + 1) := by
  have hids : ∀ q ∈ stateD.points.take stateD.nbPoints, q.id < ([0, 7, 0] : List ℤ).length := by
    intro q hq
    have hq2 : q = (⟨0, 0, 0, 0⟩ : PointXYZ) ∨ q = ⟨0, 0, 0, 2⟩ := by
      simpa [stateD, mkEmpty] using hq
    rcases hq2 with h | h <;> rw [h] <;> simp
  exact ⟨hids, editIdResult_spec stateD [0, 7, 0] 5 hids⟩

end TreeSegment
